import Mathlib

/-!
KMeansClustering (MelPi/KMeansClustering): a shallow embedding of the
clustering engine declared in src/KMeansClustering.h.

The repository ships the class header only; the bodies of the declared
operations are therefore modelled from the specification (spec.md), and each
such definition's doc comment says so.  Real-valued point coordinates are
modelled by exact rationals, randomness by explicitly passed draws, and the
uncapped convergence loop by a fuel parameter: a run that converges within
the fuel returns the converged labels and centers, a run that does not
returns none (the spec's loop has no iteration cap, so only completed runs
are observable).
-/

namespace KMeansClustering

/-- Modelled from the header's typedef: PointType is a D-dimensional real
vector (Eigen::VectorXf), embedded as a list of exact rationals. -/
abbrev PointType := List ℚ

/-- Modelled from the header's typedef: an ordered collection of points. -/
abbrev VectorOfPoints := List PointType

/-- Squared Euclidean distance between two points.  The spec's nearest-center
and k-means++ computations compare Euclidean distances; since the square
root is strictly monotone on nonnegative reals, comparisons of Euclidean
distances and of squared Euclidean distances agree, and the embedding works
with the squares throughout. -/
def dist2 (p q : PointType) : ℚ :=
  (List.zipWith (fun a b => (a - b) * (a - b)) p q).sum

/-- Index of the first minimum of f over the range 0, ..., n-1 (0 when
n = 0): the linear scan of the spec, with ties broken toward the lowest
index because only a strictly smaller value displaces the running best. -/
def firstArgmin (f : ℕ → ℚ) : ℕ → ℕ
  | 0 => 0
  | n + 1 => if f n < f (firstArgmin f n) then n else firstArgmin f n

/-- Modelled from the spec: the missing body of
KMeansClustering::ClosestCluster.  Linear scan over the current centers,
Euclidean distance, index of the minimum, ties broken by lowest index.  The
member ClusterCenters is passed explicitly. -/
def ClosestCluster (centers : VectorOfPoints) (queryPoint : PointType) : ℕ :=
  firstArgmin (fun i => dist2 queryPoint (centers.getD i [])) centers.length

/-- Modelled from the spec: the missing body of
KMeansClustering::AssignLabels.  Every point is labelled with the index of
its nearest current center. -/
def AssignLabels (centers : VectorOfPoints) (points : VectorOfPoints) : List ℕ :=
  points.map (ClosestCluster centers)

/-- Modelled from the spec: the missing body of
KMeansClustering::GetIndicesWithLabel, an O(N) filter over the positions of
the Labels array. -/
def GetIndicesWithLabel (labels : List ℕ) (label : ℕ) : List ℕ :=
  (List.range labels.length).filter (fun i => labels.getD i 0 == label)

/-- Modelled from the spec: the missing body of
KMeansClustering::GetPointsWithLabel, an O(N) filter keeping the points
whose positionally associated label equals the queried value. -/
def GetPointsWithLabel (points : VectorOfPoints) (labels : List ℕ)
    (label : ℕ) : VectorOfPoints :=
  ((points.zip labels).filter (fun pl => pl.2 == label)).map Prod.fst

/-- Componentwise sum of two points. -/
def addVec (p q : PointType) : PointType := List.zipWith (· + ·) p q

/-- Componentwise sum of a collection of d-dimensional points. -/
def sumVec (d : ℕ) (pts : VectorOfPoints) : PointType :=
  pts.foldl addVec (List.replicate d 0)

/-- Componentwise arithmetic mean of a collection of d-dimensional points. -/
def meanPoint (d : ℕ) (pts : VectorOfPoints) : PointType :=
  (sumVec d pts).map (fun x => x / (pts.length : ℚ))

/-- Modelled from the spec: the missing body of
KMeansClustering::EstimateClusterCenters.  For each cluster id c below K the
new center is the componentwise mean of the points labelled c; a cluster
with zero members keeps its previous center unchanged (the explicit
degenerate-cluster policy the spec calls for). -/
def EstimateClusterCenters (k d : ℕ) (points : VectorOfPoints)
    (labels : List ℕ) (oldCenters : VectorOfPoints) : VectorOfPoints :=
  (List.range k).map (fun c =>
    let pts := GetPointsWithLabel points labels c
    if pts.isEmpty then oldCenters.getD c (List.replicate d 0)
    else meanPoint d pts)

/-- Modelled from the spec: the convergence loop of
KMeansClustering::Cluster.  Each iteration assigns labels against the
current centers; when the labels equal the previous labels the loop stops
in the converged state, otherwise the centers are re-estimated from the new
labels and the loop repeats.  The spec's uncapped loop is embedded with a
fuel bound: none is an incomplete (never-converging within fuel) run. -/
def clusterLoop (k d : ℕ) (points : VectorOfPoints) :
    ℕ → List ℕ → VectorOfPoints → Option (List ℕ × VectorOfPoints)
  | 0, _, _ => none
  | fuel + 1, prevLabels, centers =>
    let labels := AssignLabels centers points
    if labels = prevLabels then some (labels, centers)
    else clusterLoop k d points fuel labels
      (EstimateClusterCenters k d points labels centers)

/-- Modelled from the spec: the sentinel previous-labels array the loop
starts from, every entry set to K, a value outside the valid label range, so
the first comparison can never report convergence on a valid run. -/
def sentinelLabels (k : ℕ) (points : VectorOfPoints) : List ℕ :=
  List.replicate points.length k

/-- Modelled from the spec: the missing body of KMeansClustering::Cluster
after initialization.  The initializer's output is passed in as initCenters
(both strategies satisfy the same produce-K-initial-centers contract); the
loop then runs from the sentinel labels to convergence. -/
def Cluster (k d : ℕ) (points : VectorOfPoints) (initCenters : VectorOfPoints)
    (fuel : ℕ) : Option (List ℕ × VectorOfPoints) :=
  clusterLoop k d points fuel (sentinelLabels k points) initCenters

/-- Running-cumulative-sum selection: the first index whose cumulative
weight strictly exceeds the drawn value r (equivalently, the first index at
which the drawn value falls below the running total), so an index of zero
weight can never be selected.  Returns the length of the list when r is at
or above the total weight. -/
def firstCumIndex : List ℚ → ℚ → ℕ
  | [], _ => 0
  | w :: rest, r => if r < w then 0 else firstCumIndex rest (r - w) + 1

/-- Modelled from the spec: the missing body of
KMeansClustering::SelectWeightedIndex.  The random source is passed
explicitly: r is the value drawn uniformly from the interval from 0
(inclusive) to the weight total S (exclusive), and u is a uniformly drawn
natural used only by the all-weights-zero fallback, which selects uniformly
over all indices.  When S is positive the result is the first index whose
running cumulative sum strictly exceeds r; the strict reading of the spec's
cumulative scan is the one under which its own determinism property (the
weights 0, 0, 5 always yield index 2) holds for every value of r. -/
def SelectWeightedIndex (weights : List ℚ) (r : ℚ) (u : ℕ) : ℕ :=
  if weights.sum = 0 then u % weights.length
  else firstCumIndex weights r

/-- Squared Euclidean distance from a point to its nearest center among the
already-chosen centers (0 when none have been chosen, a case the k-means++
recursion never reaches). -/
def nearestDist2 (centers : VectorOfPoints) (p : PointType) : ℚ :=
  match centers with
  | [] => 0
  | c :: rest => rest.foldl (fun m c2 => min m (dist2 p c2)) (dist2 p c)

/-- Modelled from the spec: one k-means++ seeding step.  Every point's
weight is its squared distance to the nearest already-chosen center; those
weights are fed to the weighted sampler, and the sampled point is appended
as the next center.  draw carries the two random values the sampler
consumes. -/
def kmeansPPStep (points : VectorOfPoints) (draw : ℚ × ℕ)
    (centers : VectorOfPoints) : VectorOfPoints :=
  centers ++
    [points.getD
      (SelectWeightedIndex (points.map (nearestDist2 centers)) draw.1 draw.2) []]

/-- The k-means++ recursion: n further centers appended one step at a time,
step j consuming the j-th draw of the random source. -/
def kmeansPPAux (points : VectorOfPoints) (draws : ℕ → ℚ × ℕ)
    (centers : VectorOfPoints) : ℕ → VectorOfPoints
  | 0 => centers
  | n + 1 => kmeansPPStep points (draws n) (kmeansPPAux points draws centers n)

/-- Modelled from the spec: the missing body of
KMeansClustering::KMeansPPInit.  The first center is the point at an index
drawn uniformly at random from the PointSet (i0 from a uniform natural
source, reduced modulo N); each of the remaining K - 1 centers is produced
by a weighted-sampling step on squared nearest-center distances. -/
def KMeansPPInit (points : VectorOfPoints) (k : ℕ) (i0 : ℕ)
    (draws : ℕ → ℚ × ℕ) : VectorOfPoints :=
  kmeansPPAux points draws [points.getD (i0 % points.length) []] (k - 1)

/-- Whether all points share the dimension of the first (vacuously true of
an empty collection). -/
def uniformDim (points : VectorOfPoints) : Bool :=
  match points with
  | [] => true
  | p :: rest => rest.all (fun q => q.length == p.length)

/-- Configuration and usage failures the spec's error taxonomy names. -/
inductive KMeansError where
  | invalidConfiguration
deriving DecidableEq

/-- Modelled from the spec: the fail-fast validation of the configuration
(K equal to zero, K above N, an empty point set, or points of inconsistent
dimensionality are invalid), performed before any clustering computation. -/
def CheckConfig (k : ℕ) (points : VectorOfPoints) : Except KMeansError Unit :=
  if k = 0 ∨ points.length < k ∨ points = [] ∨ uniformDim points = false
  then Except.error KMeansError.invalidConfiguration
  else Except.ok ()

/-- Modelled from the spec: the clustering entry point with its fail-fast
configuration check: an invalid configuration is reported as an explicit
error before the convergence loop runs. -/
def ClusterChecked (k d : ℕ) (points initCenters : VectorOfPoints)
    (fuel : ℕ) : Except KMeansError (Option (List ℕ × VectorOfPoints)) :=
  match CheckConfig k points with
  | Except.error e => Except.error e
  | Except.ok _ => Except.ok (Cluster k d points initCenters fuel)

/-- Modelled from the header: GetLabels reads the Labels array of a
completed run. -/
def GetLabels (result : List ℕ × VectorOfPoints) : List ℕ := result.1

/-- Modelled from the header: GetClusterCenters reads the ClusterCenters of
a completed run. -/
def GetClusterCenters (result : List ℕ × VectorOfPoints) : VectorOfPoints :=
  result.2

/- ## Lemmas about the linear argmin scan -/

theorem firstArgmin_lt (f : ℕ → ℚ) : ∀ n, 0 < n → firstArgmin f n < n := by
  intro n hn
  induction n with
  | zero => omega
  | succ m ih =>
    simp only [firstArgmin]
    split
    · omega
    · rcases Nat.eq_zero_or_pos m with h0 | hpos
      · subst h0
        simp [firstArgmin]
      · exact Nat.lt_succ_of_lt (ih hpos)

theorem firstArgmin_min (f : ℕ → ℚ) :
    ∀ n, ∀ j, j < n → f (firstArgmin f n) ≤ f j := by
  intro n
  induction n with
  | zero => intro j hj; omega
  | succ m ih =>
    intro j hj
    simp only [firstArgmin]
    split
    · next hlt =>
      rcases Nat.lt_succ_iff_lt_or_eq.mp hj with hj' | rfl
      · exact le_of_lt (lt_of_lt_of_le hlt (ih j hj'))
      · exact le_refl _
    · next hnlt =>
      rcases Nat.lt_succ_iff_lt_or_eq.mp hj with hj' | rfl
      · exact ih j hj'
      · exact not_lt.mp hnlt

theorem firstArgmin_first (f : ℕ → ℚ) :
    ∀ n, ∀ j, j < firstArgmin f n → f (firstArgmin f n) < f j := by
  intro n
  induction n with
  | zero => intro j hj; simp [firstArgmin] at hj
  | succ m ih =>
    intro j hj
    simp only [firstArgmin] at hj ⊢
    split at hj
    · next hlt =>
      rw [if_pos hlt]
      exact lt_of_lt_of_le hlt (firstArgmin_min f m j hj)
    · next hnlt =>
      rw [if_neg hnlt]
      exact ih j hj

/-- C6: for every query point and every non-empty current ClusterCenters
sequence, ClosestCluster returns an in-range index of a center at minimum
(squared, hence also plain) Euclidean distance to the query point, and every
index below the returned one is at strictly greater distance, so among
equally close centers the lowest index is returned. -/
theorem closestCluster_min (centers : VectorOfPoints) (queryPoint : PointType)
    (hne : centers ≠ []) :
    ClosestCluster centers queryPoint < centers.length ∧
    (∀ j, j < centers.length →
      dist2 queryPoint (centers.getD (ClosestCluster centers queryPoint) []) ≤
        dist2 queryPoint (centers.getD j [])) ∧
    (∀ j, j < ClosestCluster centers queryPoint →
      dist2 queryPoint (centers.getD (ClosestCluster centers queryPoint) []) <
        dist2 queryPoint (centers.getD j [])) := by
  have hlen : 0 < centers.length := List.length_pos.mpr hne
  unfold ClosestCluster
  exact ⟨firstArgmin_lt (fun i => dist2 queryPoint (centers.getD i []))
      centers.length hlen,
    fun j hj => firstArgmin_min (fun i => dist2 queryPoint (centers.getD i []))
      centers.length j hj,
    fun j hj => firstArgmin_first (fun i => dist2 queryPoint (centers.getD i []))
      centers.length j hj⟩

theorem closestCluster_min_witness :
    ClosestCluster [[0], [2]] [3] < 2 :=
  (closestCluster_min [[0], [2]] [3] (by decide)).1

/- ## The weighted sampler -/

theorem sum_of_all_zero (l : List ℚ) (h : ∀ w ∈ l, w = 0) : l.sum = 0 := by
  induction l with
  | nil => rfl
  | cons w ws ih =>
    rw [List.sum_cons, h w (List.mem_cons_self w ws),
      ih (fun x hx => h x (List.mem_cons_of_mem w hx)), add_zero]

/-- C7: on a weights vector whose entries are all zero, SelectWeightedIndex
falls back to a uniform selection over all indices (the uniformly drawn
natural u reduced modulo the length), which in particular is a valid index
below the length of the vector. -/
theorem selectWeightedIndex_zero_fallback (weights : List ℚ) (r : ℚ) (u : ℕ)
    (hne : weights ≠ []) (hzero : ∀ w ∈ weights, w = 0) :
    SelectWeightedIndex weights r u = u % weights.length ∧
    u % weights.length < weights.length := by
  unfold SelectWeightedIndex
  rw [if_pos (sum_of_all_zero weights hzero)]
  exact ⟨rfl, Nat.mod_lt u (List.length_pos.mpr hne)⟩

theorem selectWeightedIndex_zero_fallback_witness :
    SelectWeightedIndex [0, 0, 0] 1 7 = 7 % 3 ∧ 7 % 3 < 3 :=
  selectWeightedIndex_zero_fallback [0, 0, 0] 1 7 (by decide) (by decide)

/-- C8: on the weights 0, 0, 5 the sampler returns index 2 for every value
the random source can draw, that is, for every r in the half-open interval
from 0 to the weight total 5. -/
theorem selectWeightedIndex_005 (r : ℚ) (u : ℕ) (h0 : 0 ≤ r) (h5 : r < 5) :
    SelectWeightedIndex [0, 0, 5] r u = 2 := by
  have hsum : ([0, 0, 5] : List ℚ).sum ≠ 0 := by norm_num
  unfold SelectWeightedIndex
  rw [if_neg hsum]
  simp only [firstCumIndex, sub_zero]
  rw [if_neg (not_lt.mpr h0), if_neg (not_lt.mpr h0), if_pos h5]

theorem selectWeightedIndex_005_witness :
    SelectWeightedIndex [0, 0, 5] (mkRat 3 2) 0 = 2 :=
  selectWeightedIndex_005 (mkRat 3 2) 0 (by decide) (by decide)

/- ## Fail-fast configuration checking -/

/-- C9: every invalid configuration (K equal to zero, K above the number of
points, an empty point set, or points of inconsistent dimensionality) is
reported to the caller as an explicit InvalidConfiguration failure by the
checked clustering entry point, before any clustering computation runs. -/
theorem invalidConfig_fails_fast (k d : ℕ) (points initCenters : VectorOfPoints)
    (fuel : ℕ)
    (h : k = 0 ∨ points.length < k ∨ points = [] ∨ uniformDim points = false) :
    ClusterChecked k d points initCenters fuel =
      Except.error KMeansError.invalidConfiguration := by
  unfold ClusterChecked CheckConfig
  rw [if_pos h]

theorem invalidConfig_fails_fast_witness :
    ClusterChecked 0 1 [[0]] [] 1 =
      Except.error KMeansError.invalidConfiguration :=
  invalidConfig_fails_fast 0 1 [[0]] [] 1 (Or.inl rfl)

/- ## The center estimator -/

theorem estimate_getD (k d c : ℕ) (points : VectorOfPoints) (labels : List ℕ)
    (oldCenters : VectorOfPoints) (hc : c < k) :
    (EstimateClusterCenters k d points labels oldCenters).getD c [] =
      if (GetPointsWithLabel points labels c).isEmpty
      then oldCenters.getD c (List.replicate d 0)
      else meanPoint d (GetPointsWithLabel points labels c) := by
  unfold EstimateClusterCenters
  rw [List.getD_eq_getElem?_getD, List.getElem?_map, List.getElem?_range hc]
  rfl

/-- C5: a cluster id below K that receives zero assigned points is handled
by the explicit degenerate-cluster policy: its previous center is retained
unchanged, so the resulting center is a well-defined point (over the exact
rationals of the embedding no NaN-like undefined component exists). -/
theorem estimate_empty_cluster_policy (k d c : ℕ) (points : VectorOfPoints)
    (labels : List ℕ) (oldCenters : VectorOfPoints) (hc : c < k)
    (hlen : oldCenters.length = k)
    (hempty : GetPointsWithLabel points labels c = []) :
    (EstimateClusterCenters k d points labels oldCenters).getD c [] =
      oldCenters.getD c [] := by
  rw [estimate_getD k d c points labels oldCenters hc, hempty]
  have hlt : c < oldCenters.length := by omega
  simp only [List.isEmpty_nil, if_true]
  rw [List.getD_eq_getElem?_getD, List.getD_eq_getElem?_getD,
    List.getElem?_eq_getElem hlt]
  rfl

theorem estimate_empty_cluster_policy_witness :
    (EstimateClusterCenters 1 1 [[0]] [5] [[7]]).getD 0 [] = [[7]].getD 0 [] :=
  estimate_empty_cluster_policy 1 1 0 [[0]] [5] [[7]] (by decide) (by decide)
    (by decide)

/- ## Agreement of the label-filtering accessors -/

theorem getPointsWithLabel_eq_map (points : VectorOfPoints) (labels : List ℕ)
    (label : ℕ) (hlen : labels.length = points.length) :
    GetPointsWithLabel points labels label =
      (GetIndicesWithLabel labels label).map (fun i => points.getD i []) := by
  induction labels generalizing points with
  | nil =>
    have hp : points = [] := List.length_eq_zero.mp hlen.symm
    subst hp
    rfl
  | cons a as ih =>
    cases points with
    | nil => simp at hlen
    | cons p ps =>
      have hlen' : as.length = ps.length := by simpa using hlen
      have ihp := ih ps hlen'
      unfold GetPointsWithLabel GetIndicesWithLabel at ihp ⊢
      simp only [List.zip_cons_cons, List.filter_cons, List.length_cons,
        List.range_succ_eq_map, List.filter_map, List.map_map,
        List.getD_eq_getElem?_getD, List.getElem?_cons_zero,
        List.getElem?_cons_succ, Function.comp_def,
        Nat.succ_eq_add_one] at ihp ⊢
      cases h : (a == label) with
      | true => simp [h, ihp, Function.comp_def]
      | false => simp [h, ihp, Function.comp_def]

/-- C10: with the Labels array positionally matched to the points (the
class invariant), GetPointsWithLabel returns exactly the points at the
indices returned by GetIndicesWithLabel, in the same order; consequently
the two accessors agree on which positions carry the queried label, and for
a label carried by no point both return the empty sequence. -/
theorem points_indices_with_label_agree (points : VectorOfPoints)
    (labels : List ℕ) (label : ℕ) (hlen : labels.length = points.length) :
    GetPointsWithLabel points labels label =
      (GetIndicesWithLabel labels label).map (fun i => points.getD i []) ∧
    ((∀ l ∈ labels, l ≠ label) →
      GetIndicesWithLabel labels label = [] ∧
      GetPointsWithLabel points labels label = []) := by
  refine ⟨getPointsWithLabel_eq_map points labels label hlen, fun hno => ?_⟩
  have hidx : GetIndicesWithLabel labels label = [] := by
    unfold GetIndicesWithLabel
    rw [List.filter_eq_nil_iff]
    intro i hi
    have hi' : i < labels.length := List.mem_range.mp hi
    have hmem : labels.getD i 0 ∈ labels := by
      rw [List.getD_eq_getElem?_getD, List.getElem?_eq_getElem hi']
      exact List.getElem_mem hi'
    simp only [beq_iff_eq]
    exact hno _ hmem
  refine ⟨hidx, ?_⟩
  rw [getPointsWithLabel_eq_map points labels label hlen, hidx]
  rfl

theorem points_indices_with_label_agree_witness :
    GetPointsWithLabel [[0], [2]] [0, 1] 0 =
      (GetIndicesWithLabel [0, 1] 0).map (fun i => [[0], [2]].getD i []) ∧
    ((∀ l ∈ [0, 1], l ≠ 0) →
      GetIndicesWithLabel [0, 1] 0 = [] ∧
      GetPointsWithLabel [[0], [2]] [0, 1] 0 = []) :=
  points_indices_with_label_agree [[0], [2]] [0, 1] 0 (by decide)

/- ## The convergence loop -/

theorem clusterLoop_fixed_point (k d : ℕ) (points : VectorOfPoints) :
    ∀ (fuel : ℕ) (prev L : List ℕ) (centers C : VectorOfPoints),
    clusterLoop k d points fuel prev centers = some (L, C) →
    AssignLabels C points = L := by
  intro fuel
  induction fuel with
  | zero => intro prev L centers C h; simp [clusterLoop] at h
  | succ n ih =>
    intro prev L centers C h
    simp only [clusterLoop] at h
    split at h
    · simp only [Option.some.injEq, Prod.mk.injEq] at h
      obtain ⟨rfl, rfl⟩ := h
      rfl
    · exact ih _ _ _ _ h

theorem estimate_length (k d : ℕ) (points : VectorOfPoints) (labels : List ℕ)
    (oldCenters : VectorOfPoints) :
    (EstimateClusterCenters k d points labels oldCenters).length = k := by
  unfold EstimateClusterCenters
  rw [List.length_map, List.length_range]

theorem clusterLoop_centers_length (k d : ℕ) (points : VectorOfPoints) :
    ∀ (fuel : ℕ) (prev L : List ℕ) (centers C : VectorOfPoints),
    centers.length = k →
    clusterLoop k d points fuel prev centers = some (L, C) →
    C.length = k := by
  intro fuel
  induction fuel with
  | zero => intro prev L centers C _ h; simp [clusterLoop] at h
  | succ n ih =>
    intro prev L centers C hlen h
    simp only [clusterLoop] at h
    split at h
    · simp only [Option.some.injEq, Prod.mk.injEq] at h
      obtain ⟨rfl, rfl⟩ := h
      exact hlen
    · exact ih _ _ _ _ (estimate_length k d points _ centers) h

/-- C1: on a valid configuration (non-empty points of uniform dimension,
K between 1 and N, K initial centers), when Cluster completes, re-running
AssignLabels against the final ClusterCenters reproduces the final Labels
exactly: the converged labeling is a fixed point of the assignment step. -/
theorem cluster_fixed_point (k d fuel : ℕ)
    (points initCenters : VectorOfPoints) (L : List ℕ) (C : VectorOfPoints)
    (hp : points ≠ []) (hk : 1 ≤ k) (hkN : k ≤ points.length)
    (hdim : uniformDim points = true) (hinit : initCenters.length = k)
    (hrun : Cluster k d points initCenters fuel = some (L, C)) :
    AssignLabels C points = L :=
  clusterLoop_fixed_point k d points fuel (sentinelLabels k points) L
    initCenters C hrun

/-- C2: for every completed run of Cluster on a valid configuration, the
Labels array has one label per point, every label lies below K, and the
ClusterCenters sequence has length exactly K. -/
theorem cluster_result_invariants (k d fuel : ℕ)
    (points initCenters : VectorOfPoints) (res : List ℕ × VectorOfPoints)
    (hp : points ≠ []) (hk : 1 ≤ k) (hkN : k ≤ points.length)
    (hinit : initCenters.length = k)
    (hrun : Cluster k d points initCenters fuel = some res) :
    (GetLabels res).length = points.length ∧
    (∀ l ∈ GetLabels res, l < k) ∧
    (GetClusterCenters res).length = k := by
  obtain ⟨L, C⟩ := res
  have hfix : AssignLabels C points = L :=
    clusterLoop_fixed_point k d points fuel (sentinelLabels k points) L
      initCenters C hrun
  have hClen : C.length = k :=
    clusterLoop_centers_length k d points fuel (sentinelLabels k points) L
      initCenters C hinit hrun
  simp only [GetLabels, GetClusterCenters]
  refine ⟨?_, ?_, hClen⟩
  · rw [← hfix]
    exact List.length_map points (ClosestCluster C)
  · intro l hl
    rw [← hfix] at hl
    obtain ⟨p, hpmem, rfl⟩ := List.mem_map.mp hl
    have hlt : ClosestCluster C p < C.length := by
      unfold ClosestCluster
      exact firstArgmin_lt _ _ (by omega)
    omega

/- ## Componentwise means -/

theorem addVec_getD (a b : PointType) (j : ℕ) (ha : j < a.length)
    (hb : j < b.length) :
    (addVec a b).getD j 0 = a.getD j 0 + b.getD j 0 := by
  have hab : j < (addVec a b).length := by
    unfold addVec
    rw [List.length_zipWith]
    omega
  rw [List.getD_eq_getElem?_getD, List.getElem?_eq_getElem hab,
    List.getD_eq_getElem?_getD, List.getElem?_eq_getElem ha,
    List.getD_eq_getElem?_getD, List.getElem?_eq_getElem hb]
  simp only [Option.getD_some]
  unfold addVec
  simp [List.getElem_zipWith]

theorem addVec_length (a b : PointType) :
    (addVec a b).length = min a.length b.length := by
  unfold addVec
  exact List.length_zipWith _ _ _

theorem foldl_addVec_getD (d j : ℕ) (hj : j < d) :
    ∀ (pts : VectorOfPoints) (acc : PointType), acc.length = d →
    (∀ p ∈ pts, p.length = d) →
    (pts.foldl addVec acc).length = d ∧
    (pts.foldl addVec acc).getD j 0 =
      acc.getD j 0 + (pts.map (fun p => p.getD j 0)).sum := by
  intro pts
  induction pts with
  | nil =>
    intro acc hacc _
    exact ⟨hacc, by simp⟩
  | cons p ps ih =>
    intro acc hacc hdims
    have hp : p.length = d := hdims p (List.mem_cons_self p ps)
    have hacc' : (addVec acc p).length = d := by
      rw [addVec_length]
      omega
    have hdims' : ∀ q ∈ ps, q.length = d :=
      fun q hq => hdims q (List.mem_cons_of_mem p hq)
    obtain ⟨hlen, hsum⟩ := ih (addVec acc p) hacc' hdims'
    refine ⟨hlen, ?_⟩
    simp only [List.foldl_cons, List.map_cons, List.sum_cons]
    rw [hsum, addVec_getD acc p j (by omega) (by omega)]
    ring

theorem meanPoint_getD (d : ℕ) (pts : VectorOfPoints) (j : ℕ) (hj : j < d)
    (hdims : ∀ p ∈ pts, p.length = d) :
    (meanPoint d pts).getD j 0 =
      (pts.map (fun p => p.getD j 0)).sum / (pts.length : ℚ) := by
  obtain ⟨hlen, hsum⟩ := foldl_addVec_getD d j hj pts (List.replicate d 0)
    (by simp) hdims
  unfold meanPoint sumVec
  have hjs : j < (pts.foldl addVec (List.replicate d 0)).length := by omega
  have hjm : j < ((pts.foldl addVec (List.replicate d 0)).map
      (fun x => x / (pts.length : ℚ))).length := by
    rw [List.length_map]
    omega
  rw [List.getD_eq_getElem?_getD, List.getElem?_eq_getElem hjm]
  simp only [Option.getD_some, List.getElem_map]
  have : (pts.foldl addVec (List.replicate d 0))[j] =
      (pts.foldl addVec (List.replicate d 0)).getD j 0 := by
    rw [List.getD_eq_getElem?_getD, List.getElem?_eq_getElem hjs]
    rfl
  have hz : (List.replicate d (0:ℚ)).getD j 0 = 0 := by
    have hjr : j < (List.replicate d (0:ℚ)).length := by simp [hj]
    rw [List.getD_eq_getElem?_getD, List.getElem?_eq_getElem hjr]
    simp
  rw [this, hsum, hz, zero_add]

/- ## The mean property of converged runs -/

theorem mem_getPointsWithLabel (points : VectorOfPoints) (labels : List ℕ)
    (label : ℕ) (p : PointType)
    (hp : p ∈ GetPointsWithLabel points labels label) : p ∈ points := by
  unfold GetPointsWithLabel at hp
  obtain ⟨⟨q, l⟩, hmem, rfl⟩ := List.mem_map.mp hp
  exact (List.of_mem_zip (List.mem_filter.mp hmem).1).1

theorem estimate_meanProp (k d : ℕ) (points : VectorOfPoints)
    (labels : List ℕ) (oldCenters : VectorOfPoints) :
    ∀ c, c < k → GetPointsWithLabel points labels c ≠ [] →
    (EstimateClusterCenters k d points labels oldCenters).getD c [] =
      meanPoint d (GetPointsWithLabel points labels c) := by
  intro c hc hne
  rw [estimate_getD k d c points labels oldCenters hc]
  have hfalse : (GetPointsWithLabel points labels c).isEmpty = false := by
    cases hgp : GetPointsWithLabel points labels c with
    | nil => exact absurd hgp hne
    | cons x xs => rfl
  simp [hfalse]

theorem clusterLoop_mean (k d : ℕ) (points : VectorOfPoints) :
    ∀ (fuel : ℕ) (prev L : List ℕ) (centers C : VectorOfPoints),
    clusterLoop k d points fuel prev centers = some (L, C) →
    (AssignLabels centers points = prev →
      ∀ c, c < k → GetPointsWithLabel points prev c ≠ [] →
        centers.getD c [] = meanPoint d (GetPointsWithLabel points prev c)) →
    ∀ c, c < k → GetPointsWithLabel points L c ≠ [] →
      C.getD c [] = meanPoint d (GetPointsWithLabel points L c) := by
  intro fuel
  induction fuel with
  | zero => intro prev L centers C h; simp [clusterLoop] at h
  | succ n ih =>
    intro prev L centers C h hbase
    simp only [clusterLoop] at h
    split at h
    · next heq =>
      simp only [Option.some.injEq, Prod.mk.injEq] at h
      obtain ⟨rfl, rfl⟩ := h
      rw [heq]
      exact hbase heq
    · exact ih _ _ _ _ h
        (fun _ => estimate_meanProp k d points (AssignLabels centers points)
          centers)

theorem assign_ne_sentinel (k : ℕ) (points initCenters : VectorOfPoints)
    (hp : points ≠ []) (hinit : initCenters.length = k) (hk : 1 ≤ k) :
    AssignLabels initCenters points ≠ sentinelLabels k points := by
  obtain ⟨p, ps, rfl⟩ := List.exists_cons_of_ne_nil hp
  intro habs
  unfold AssignLabels sentinelLabels at habs
  simp only [List.map_cons, List.length_cons, List.replicate_succ,
    List.cons.injEq] at habs
  have hlt : ClosestCluster initCenters p < initCenters.length := by
    unfold ClosestCluster
    exact firstArgmin_lt _ _ (by omega)
  omega

/-- C4: on a completed run over a valid configuration of dimension d, every
cluster id below K with at least one assigned point stores as its center
the componentwise arithmetic mean (the sum of each coordinate divided by
the member count) of exactly the points whose final label equals that id,
as recomputed by EstimateClusterCenters each loop iteration. -/
theorem cluster_mean_property (k d fuel c : ℕ)
    (points initCenters : VectorOfPoints) (L : List ℕ) (C : VectorOfPoints)
    (hp : points ≠ []) (hk : 1 ≤ k) (hinit : initCenters.length = k)
    (hdim : ∀ p ∈ points, p.length = d)
    (hrun : Cluster k d points initCenters fuel = some (L, C))
    (hc : c < k) (hne : GetPointsWithLabel points L c ≠ []) :
    C.getD c [] = meanPoint d (GetPointsWithLabel points L c) ∧
    ∀ j, j < d → (C.getD c []).getD j 0 =
      ((GetPointsWithLabel points L c).map (fun p => p.getD j 0)).sum /
        ((GetPointsWithLabel points L c).length : ℚ) := by
  have hmean : C.getD c [] = meanPoint d (GetPointsWithLabel points L c) := by
    refine clusterLoop_mean k d points fuel (sentinelLabels k points) L
      initCenters C hrun ?_ c hc hne
    intro habs
    exact absurd habs (assign_ne_sentinel k points initCenters hp hinit hk)
  refine ⟨hmean, fun j hj => ?_⟩
  rw [hmean]
  exact meanPoint_getD d (GetPointsWithLabel points L c) j hj
    (fun q hq => hdim q (mem_getPointsWithLabel points L c q hq))

/- ## Concrete complete run used by the loop witnesses -/

/-- The spec's end-to-end scenario: four points in two well-separated
pairs. -/
def witnessPoints : VectorOfPoints := [[0, 0], [0, 1], [10, 0], [10, 1]]

/-- Deterministic seeding of the end-to-end scenario. -/
def witnessInit : VectorOfPoints := [[0, 0], [10, 0]]

/-- The converged labels of the end-to-end scenario. -/
def witnessLabels : List ℕ := [0, 0, 1, 1]

/-- The converged centers of the end-to-end scenario. -/
def witnessCenters : VectorOfPoints := [[0, mkRat 1 2], [10, mkRat 1 2]]

unseal Rat.add Rat.mul Rat.inv Rat.sub in
theorem cluster_fixed_point_witness :
    AssignLabels witnessCenters witnessPoints = witnessLabels :=
  cluster_fixed_point 2 2 3 witnessPoints witnessInit witnessLabels
    witnessCenters (by decide) (by decide) (by decide) (by decide) (by decide)
    (by decide)

unseal Rat.add Rat.mul Rat.inv Rat.sub in
theorem cluster_result_invariants_witness :
    (GetClusterCenters (witnessLabels, witnessCenters)).length = 2 :=
  (cluster_result_invariants 2 2 3 witnessPoints witnessInit
    (witnessLabels, witnessCenters) (by decide) (by decide) (by decide)
    (by decide) (by decide)).2.2

unseal Rat.add Rat.mul Rat.inv Rat.sub in
theorem cluster_mean_property_witness :
    witnessCenters.getD 0 [] =
      meanPoint 2 (GetPointsWithLabel witnessPoints witnessLabels 0) :=
  (cluster_mean_property 2 2 3 0 witnessPoints witnessInit witnessLabels
    witnessCenters (by decide) (by decide) (by decide) (by decide) (by decide)
    (by decide) (by decide)).1

/- ## KMeans++ seeding -/

theorem kmeansPPAux_length (points : VectorOfPoints) (draws : ℕ → ℚ × ℕ)
    (centers : VectorOfPoints) :
    ∀ n, (kmeansPPAux points draws centers n).length = centers.length + n := by
  intro n
  induction n with
  | zero => rfl
  | succ m ih =>
    simp only [kmeansPPAux, kmeansPPStep, List.length_append, ih,
      List.length_cons, List.length_nil]
    omega

theorem kmeansPPAux_suffix (points : VectorOfPoints) (draws : ℕ → ℚ × ℕ)
    (centers : VectorOfPoints) :
    ∀ n m, ∃ suffix, kmeansPPAux points draws centers (n + m) =
      kmeansPPAux points draws centers n ++ suffix := by
  intro n m
  induction m with
  | zero => exact ⟨[], by simp⟩
  | succ j ih =>
    obtain ⟨s, hs⟩ := ih
    have hidx : n + (j + 1) = (n + j) + 1 := by omega
    rw [hidx]
    simp only [kmeansPPAux, kmeansPPStep]
    rw [hs, List.append_assoc]
    exact ⟨_, rfl⟩

theorem kmeansPPAux_getD_zero (points : VectorOfPoints) (draws : ℕ → ℚ × ℕ)
    (centers : VectorOfPoints) (hcs : centers ≠ []) :
    ∀ n, (kmeansPPAux points draws centers n).getD 0 [] =
      centers.getD 0 [] := by
  intro n
  induction n with
  | zero => rfl
  | succ m ih =>
    have hlen : 0 < (kmeansPPAux points draws centers m).length := by
      rw [kmeansPPAux_length]
      have := List.length_pos.mpr hcs
      omega
    simp only [kmeansPPAux, kmeansPPStep]
    rw [List.getD_append _ _ _ _ hlen, ih]

/-- C3: with the k-means++ initialization, the seeding produces exactly K
centers; the first is the point at the index drawn uniformly from the
PointSet; and every later center arises by handing the weighted sampler,
as the weight of each point, that point's squared Euclidean distance to
its nearest already-chosen center, and appending the point at the sampled
index — each prefix of m chosen centers being literally the first m
entries of the final seeding. -/
theorem kmeansPPInit_spec (points : VectorOfPoints) (k i0 : ℕ)
    (draws : ℕ → ℚ × ℕ) (hp : points ≠ []) (hk : 1 ≤ k)
    (hi : i0 < points.length) :
    (KMeansPPInit points k i0 draws).length = k ∧
    (KMeansPPInit points k i0 draws).getD 0 [] = points.getD i0 [] ∧
    (∀ j, KMeansPPInit points (j + 2) i0 draws =
      KMeansPPInit points (j + 1) i0 draws ++
        [points.getD
          (SelectWeightedIndex
            (points.map (nearestDist2 (KMeansPPInit points (j + 1) i0 draws)))
            (draws j).1 (draws j).2) []]) ∧
    (∀ m, 1 ≤ m → m ≤ k →
      KMeansPPInit points m i0 draws =
        (KMeansPPInit points k i0 draws).take m) := by
  refine ⟨?_, ?_, ?_, ?_⟩
  · unfold KMeansPPInit
    rw [kmeansPPAux_length]
    simp only [List.length_cons, List.length_nil]
    omega
  · unfold KMeansPPInit
    rw [kmeansPPAux_getD_zero points draws _ (by simp), Nat.mod_eq_of_lt hi]
    rfl
  · intro j
    unfold KMeansPPInit
    have e1 : j + 2 - 1 = j + 1 := by omega
    have e2 : j + 1 - 1 = j := by omega
    rw [e1, e2]
    simp only [kmeansPPAux, kmeansPPStep]
  · intro m hm1 hmk
    unfold KMeansPPInit
    obtain ⟨s, hs⟩ := kmeansPPAux_suffix points draws
      [points.getD (i0 % points.length) []] (m - 1) (k - m)
    have hsplit : (m - 1) + (k - m) = k - 1 := by omega
    rw [hsplit] at hs
    have hlen : (kmeansPPAux points draws
        [points.getD (i0 % points.length) []] (m - 1)).length = m := by
      rw [kmeansPPAux_length]
      simp only [List.length_cons, List.length_nil]
      omega
    rw [hs, List.take_left' hlen]

/-- A fixed sequence of draws for exercising the seeding on a concrete
input. -/
def constDraws : ℕ → ℚ × ℕ := fun _ => (3, 0)

theorem kmeansPPInit_spec_witness :
    (KMeansPPInit [[0], [2], [10]] 2 0 constDraws).length = 2 :=
  (kmeansPPInit_spec [[0], [2], [10]] 2 0 constDraws (by decide) (by decide)
    (by decide)).1

end KMeansClustering
